import Mathlib

/-!
Verification of the `wheelbuf` ring buffer (`src/lib.rs`).

The buffer is generic over a backing container `C : AsMut<[I]> + AsRef<[I]>`;
only the slice view of the container is ever used, so we embed the backing
store as a `List I`.  Machine integers (`usize`) are embedded as `Nat`; every
place where the Rust arithmetic can panic (slice index out of bounds,
remainder by zero, and — in debug builds — unsigned-subtraction underflow)
is modelled as an explicit failure value instead of a total operation.
-/

variable {I : Type}

/-- The `WheelBuf` struct: backing store (seen through its slice view),
insert position `pos`, and total-items-written counter `total`. -/
structure WheelBuf (I : Type) where
  data : List I
  pos : Nat
  total : Nat
deriving Repr, DecidableEq

/-- Outcome of `WheelBuf::push`.  `indexPanic` is the Rust panic raised by the
unguarded slice write `self.data.as_mut()[self.pos] = item` when `pos` is not
a valid index (in particular whenever the capacity is zero).  The remainder
`(pos + 1) % len` cannot itself panic: it is evaluated only after the index
check has succeeded, which forces `len > 0`. -/
inductive PushResult (I : Type) where
  | ok (b : WheelBuf I) : PushResult I
  | indexPanic : PushResult I
deriving Repr, DecidableEq

/-- Model of `WheelBuf::new`: wraps the backing store, `pos = 0`, `total = 0`. -/
def WheelBuf.new (data : List I) : WheelBuf I :=
  { data := data, pos := 0, total := 0 }

/-- Model of `WheelBuf::capacity`: length of the underlying slice. -/
def WheelBuf.capacity (b : WheelBuf I) : Nat :=
  b.data.length

/-- Model of `WheelBuf::len`: `min(total, capacity)`. -/
def WheelBuf.len (b : WheelBuf I) : Nat :=
  min b.total b.capacity

/-- Model of `WheelBuf::is_empty`: `total == 0 || capacity == 0`. -/
def WheelBuf.is_empty (b : WheelBuf I) : Bool :=
  b.total == 0 || b.capacity == 0

/-- Model of `WheelBuf::push`: writes `item` at `pos` (panicking if `pos` is out of
bounds — the source has no guard), increments `total`, then advances `pos`
modulo the capacity. -/
def WheelBuf.push (b : WheelBuf I) (item : I) : PushResult I :=
  if b.pos < b.data.length then
    .ok { data := b.data.set b.pos item
          pos := (b.pos + 1) % b.data.length
          total := b.total + 1 }
  else
    .indexPanic

/-- A sequence of `push` calls, one per list element, left to right.
`none` records that some push panicked. -/
def WheelBuf.pushList : WheelBuf I → List I → Option (WheelBuf I)
  | b, [] => some b
  | b, x :: xs =>
    match b.push x with
    | .ok b' => b'.pushList xs
    | .indexPanic => none

/-- Model of `WheelBuf::read_start`: `pos - (len % capacity)` in `usize` arithmetic.
`none` models the two possible panics: remainder by zero when the capacity
is zero, and subtraction underflow when `len % capacity > pos`. -/
def WheelBuf.read_start (b : WheelBuf I) : Option Nat :=
  if b.capacity = 0 then none
  else if b.pos < b.len % b.capacity then none
  else some (b.pos - b.len % b.capacity)

/-- The numeric value of `read_start` (as truncated `Nat` subtraction); equal
to the checked `read_start` whenever the latter does not panic. -/
def WheelBuf.rsv (b : WheelBuf I) : Nat :=
  b.pos - b.len % b.capacity

/-- The read-start formula exactly as the spec words it: `(write_pos − (len
mod C)) mod C`, "computed with the arithmetic wrapping positively even though
the naive subtraction can go negative" — i.e. capacity is added before the
subtraction so the intermediate value never goes negative. -/
def WheelBuf.specReadStart (b : WheelBuf I) : Nat :=
  ((b.pos + b.capacity) - b.len % b.capacity) % b.capacity

/-- The `WheelBufIter` struct: a borrowed buffer and a cursor. -/
structure WheelBufIter (I : Type) where
  buffer : WheelBuf I
  cur : Nat
deriving Repr, DecidableEq

/-- Model of `WheelBuf::iter`: fresh iterator with cursor 0. -/
def WheelBuf.iter (b : WheelBuf I) : WheelBufIter I :=
  { buffer := b, cur := 0 }

/-- Model of `Iterator::next` for `WheelBufIter`.  The outer `Option` models panics
inside the body (`read_start` arithmetic, slice indexing); the inner
`Option I` is the iterator's own `Option<&I>` result, paired with the
iterator state after the call. -/
def WheelBufIter.next (it : WheelBufIter I) : Option (Option I × WheelBufIter I) :=
  if it.buffer.len ≤ it.cur then
    some (none, it)
  else
    match it.buffer.read_start with
    | none => none
    | some rs =>
      match it.buffer.data[(rs + it.cur) % it.buffer.capacity]? with
      | none => none
      | some x => some (some x, { it with cur := it.cur + 1 })

/-- Model of `Iterator::nth` for `WheelBufIter`: adds `min(n, min(total, capacity))`
to the cursor when `n > 0`, then delegates to `next`. -/
def WheelBufIter.nth (it : WheelBufIter I) (n : Nat) : Option (Option I × WheelBufIter I) :=
  let max_idx := min it.buffer.total it.buffer.capacity
  let it' := if 0 < n then { it with cur := it.cur + min n max_idx } else it
  it'.next

/-- Repeated `next`: `n` successive `next` calls, keeping only the final iterator state
(`none` if any call panicked).  A call that reports end-of-sequence leaves
the iterator unchanged and the following calls proceed from it. -/
def WheelBufIter.advance : WheelBufIter I → Nat → Option (WheelBufIter I)
  | it, 0 => some it
  | it, n + 1 =>
    match it.next with
    | none => none
    | some (_, it') => it'.advance n

/-- Drive the iterator with `next` until it reports end-of-sequence (or the
fuel runs out), collecting the yielded elements in order; `none` records a
panic. -/
def WheelBufIter.collect : WheelBufIter I → Nat → Option (List I)
  | _, 0 => some []
  | it, fuel + 1 =>
    match it.next with
    | none => none
    | some (none, _) => some []
    | some (some x, it') => (it'.collect fuel).map (fun l => x :: l)

/-- Model of `<WheelBuf<C, char> as core::fmt::Write>::write_str`: pushes every char
of `s` in order via `push` and returns `Ok(())`.  `some b'` models
`Ok(())` together with the final buffer state; `none` models a panic inside
one of the pushes. -/
def WheelBuf.write_str : WheelBuf Char → List Char → Option (WheelBuf Char)
  | b, [] => some b
  | b, c :: cs =>
    match b.push c with
    | .ok b' => b'.write_str cs
    | .indexPanic => none

/-! ### Helper lemmas -/

theorem pushList_append (b : WheelBuf I) (xs ys : List I) :
    b.pushList (xs ++ ys) = (b.pushList xs).bind (fun c => c.pushList ys) := by
  induction xs generalizing b with
  | nil => rfl
  | cons x xs ih =>
    simp only [List.cons_append, WheelBuf.pushList]
    cases b.push x with
    | ok b' => exact ih b'
    | indexPanic => rfl

/-- One push into a buffer whose live contents realize the tail of `xs`
realizes the tail of `xs ++ [x]`: the slot at distance `k` from `read_start`
of the new state holds the `k`-th oldest live item of the extended history. -/
theorem push_content_step (b b' : WheelBuf I) (x : I) (xs : List I) (C : Nat) (hC : 0 < C)
    (hb' : b' = ⟨b.data.set b.pos x, (b.pos + 1) % b.data.length, b.total + 1⟩)
    (hdata : b.data.length = C)
    (htot : b.total = xs.length)
    (hpos : b.pos = xs.length % C)
    (hcontent : ∀ k, k < b.len → b.data[(b.rsv + k) % C]? = xs[xs.length - b.len + k]?) :
    ∀ k, k < b'.len →
      b'.data[(b'.rsv + k) % C]? = (xs ++ [x])[(xs ++ [x]).length - b'.len + k]? := by
  intro k hk
  have hcapb : b.capacity = C := hdata
  have hdata' : b'.data.length = C := by rw [hb']; simpa using hdata
  have hcap' : b'.capacity = C := hdata'
  have htot' : b'.total = xs.length + 1 := by rw [hb']; simp [htot]
  have hpos' : b'.pos = (xs.length + 1) % C := by
    rw [hb']
    show (b.pos + 1) % b.data.length = _
    rw [hdata, hpos]
    exact (Nat.mod_modEq xs.length C).add_right 1
  have hlenb : b.len = min xs.length C := by
    unfold WheelBuf.len
    rw [htot, hcapb]
  have hlen' : b'.len = min (xs.length + 1) C := by
    unfold WheelBuf.len
    rw [htot', hcap']
  have hlapp : (xs ++ [x]).length = xs.length + 1 := by simp
  by_cases hM : xs.length + 1 ≤ C
  · -- the buffer is not yet full: the new item lands in the first free slot
    have hMC : xs.length < C := hM
    have hlenbM : b.len = xs.length := by
      rw [hlenb]; exact Nat.min_eq_left (Nat.le_of_lt hMC)
    have hlen'M : b'.len = xs.length + 1 := by
      rw [hlen']; exact Nat.min_eq_left hM
    have hposM : b.pos = xs.length := by rw [hpos]; exact Nat.mod_eq_of_lt hMC
    have hrsv' : b'.rsv = 0 := by
      unfold WheelBuf.rsv
      rw [hlen'M, hcap', hpos']
      exact Nat.sub_self _
    have hk' : k < xs.length + 1 := hlen'M ▸ hk
    have hkC : k < C := by omega
    have hidxL : (b'.rsv + k) % C = k := by
      rw [hrsv', Nat.zero_add]
      exact Nat.mod_eq_of_lt hkC
    have hidxR : (xs ++ [x]).length - b'.len + k = k := by
      rw [hlapp, hlen'M]; omega
    rw [hidxL, hidxR, hb']
    show (b.data.set b.pos x)[k]? = (xs ++ [x])[k]?
    rcases Nat.lt_succ_iff_lt_or_eq.mp hk' with hkM | hkM
    · have hne : b.pos ≠ k := by rw [hposM]; omega
      rw [List.getElem?_set_ne hne]
      have hrsvb : b.rsv = 0 := by
        unfold WheelBuf.rsv
        rw [hlenbM, hcapb, hposM, Nat.mod_eq_of_lt hMC]
        exact Nat.sub_self _
      have h1 := hcontent k (by rw [hlenbM]; exact hkM)
      rw [hlenbM, hrsvb, Nat.zero_add, Nat.mod_eq_of_lt hkC] at h1
      rw [h1]
      have he : xs.length - xs.length + k = k := by omega
      rw [he]
      exact (List.getElem?_append_left hkM).symm
    · subst hkM
      rw [hposM, List.getElem?_set_self (by rw [hdata]; exact hMC),
        List.getElem?_concat_length]
  · -- the buffer is full: the new item overwrites the oldest slot
    have hCM : C ≤ xs.length := by omega
    have hlenbC : b.len = C := by rw [hlenb]; exact Nat.min_eq_right hCM
    have hlen'C : b'.len = C := by rw [hlen']; exact Nat.min_eq_right (by omega)
    have hkC : k < C := hlen'C ▸ hk
    have hrsvb : b.rsv = xs.length % C := by
      unfold WheelBuf.rsv
      rw [hlenbC, hcapb, hpos, Nat.mod_self, Nat.sub_zero]
    have hrsv' : b'.rsv = (xs.length + 1) % C := by
      unfold WheelBuf.rsv
      rw [hlen'C, hcap', hpos', Nat.mod_self, Nat.sub_zero]
    have hidxL : (b'.rsv + k) % C = (xs.length + 1 + k) % C := by
      rw [hrsv']
      exact (Nat.mod_modEq (xs.length + 1) C).add_right k
    have hidxR : (xs ++ [x]).length - b'.len + k = xs.length + 1 - C + k := by
      rw [hlapp, hlen'C]
    rw [hidxL, hidxR, hb']
    show (b.data.set b.pos x)[(xs.length + 1 + k) % C]? =
      (xs ++ [x])[xs.length + 1 - C + k]?
    rcases Nat.lt_or_ge (k + 1) C with hk1 | hk1
    · -- not the slot just overwritten
      have hne : b.pos ≠ (xs.length + 1 + k) % C := by
        rw [hpos]
        intro heq
        have h1 : xs.length + (k + 1) ≡ xs.length + 0 [MOD C] := by
          show (xs.length + (k + 1)) % C = (xs.length + 0) % C
          have e : xs.length + (k + 1) = xs.length + 1 + k := by omega
          rw [e, ← heq, Nat.add_zero]
        have h2 := Nat.ModEq.add_left_cancel' xs.length h1
        have h3 : (k + 1) % C = 0 % C := h2
        rw [Nat.mod_eq_of_lt hk1, Nat.zero_mod] at h3
        omega
      rw [List.getElem?_set_ne hne]
      have hstep2 : (xs.length + 1 + k) % C = (b.rsv + (k + 1)) % C := by
        rw [hrsvb]
        have e : (xs.length % C + (k + 1)) % C = (xs.length + (k + 1)) % C :=
          (Nat.mod_modEq xs.length C).add_right (k + 1)
        rw [e]
        congr 1
        omega
      have h1 := hcontent (k + 1) (by rw [hlenbC]; exact hk1)
      rw [hlenbC] at h1
      rw [hstep2, h1]
      have hR : (xs ++ [x])[xs.length + 1 - C + k]? = xs[xs.length + 1 - C + k]? :=
        List.getElem?_append_left (by omega)
      rw [hR]
      congr 1
      omega
    · -- the last logical offset: it is exactly the slot just overwritten
      have hmod : (xs.length + 1 + k) % C = xs.length % C := by
        have e : xs.length + 1 + k = xs.length + C := by omega
        rw [e, Nat.add_mod_right]
      rw [hmod, ← hpos,
        List.getElem?_set_self (by rw [hdata, hpos]; exact Nat.mod_lt _ hC)]
      have hRid : xs.length + 1 - C + k = xs.length := by omega
      rw [hRid, List.getElem?_concat_length]

/-- Characterization of the state reached by pushing the list `xs` into a
fresh buffer over backing store `init` of positive length: every push
succeeds, `total` counts the pushes, `pos` wraps modulo the capacity, and the
slot at distance `k` from `read_start` holds the `k`-th oldest live item. -/
theorem pushList_new_spec (init : List I) (hC : 0 < init.length) (xs : List I) :
    ∃ b : WheelBuf I,
      (WheelBuf.new init).pushList xs = some b ∧
      b.data.length = init.length ∧
      b.total = xs.length ∧
      b.pos = xs.length % init.length ∧
      ∀ k, k < b.len →
        b.data[(b.rsv + k) % init.length]? = xs[xs.length - b.len + k]? := by
  induction xs using List.reverseRecOn with
  | nil =>
    refine ⟨WheelBuf.new init, rfl, rfl, rfl, by simp [WheelBuf.new], ?_⟩
    intro k hk
    simp [WheelBuf.len, WheelBuf.new, WheelBuf.capacity] at hk
  | append_singleton xs x ih =>
    obtain ⟨b, hpush, hdata, htot, hpos, hcontent⟩ := ih
    have hposlt : b.pos < b.data.length := by
      rw [hdata, hpos]; exact Nat.mod_lt _ hC
    have hstep : b.push x = .ok
        { data := b.data.set b.pos x
          pos := (b.pos + 1) % b.data.length
          total := b.total + 1 } := by
      unfold WheelBuf.push
      rw [if_pos hposlt]
    refine ⟨⟨b.data.set b.pos x, (b.pos + 1) % b.data.length, b.total + 1⟩,
      ?_, ?_, ?_, ?_, ?_⟩
    · rw [pushList_append, hpush, Option.some_bind]
      simp only [WheelBuf.pushList, hstep]
    · simpa using hdata
    · show b.total + 1 = (xs ++ [x]).length
      simp [htot]
    · show (b.pos + 1) % b.data.length = (xs ++ [x]).length % init.length
      rw [hdata, hpos, List.length_append, List.length_singleton]
      exact (Nat.mod_modEq xs.length init.length).add_right 1
    · exact push_content_step b _ x xs init.length hC rfl hdata htot hpos hcontent

/-- Behavior of `next` on an exhausted iterator: reports end-of-sequence and leaves the
iterator untouched.  This needs no assumption on the buffer at all. -/
theorem next_exhausted (b : WheelBuf I) (cur : Nat) (hcur : b.len ≤ cur) :
    WheelBufIter.next ⟨b, cur⟩ = some (none, ⟨b, cur⟩) := by
  unfold WheelBufIter.next
  dsimp only
  rw [if_pos hcur]

/-- Behavior of `next` below `len` on a state with positive capacity satisfying the
no-underflow invariant: no panic, yields the element at the mapped physical
index, and bumps the cursor by one. -/
theorem next_lt (b : WheelBuf I) (cur : Nat) (hC : 0 < b.capacity)
    (hinv : b.len % b.capacity ≤ b.pos) (hcur : cur < b.len) :
    ∃ x, b.data[(b.rsv + cur) % b.capacity]? = some x ∧
      WheelBufIter.next ⟨b, cur⟩ = some (some x, ⟨b, cur + 1⟩) := by
  have hidx : (b.rsv + cur) % b.capacity < b.data.length := Nat.mod_lt _ hC
  obtain ⟨x, hx⟩ : ∃ x, b.data[(b.rsv + cur) % b.capacity]? = some x := by
    rw [List.getElem?_eq_getElem hidx]
    exact ⟨_, rfl⟩
  have hrs : b.read_start = some b.rsv := by
    unfold WheelBuf.read_start
    rw [if_neg (by omega), if_neg (by omega)]
    rfl
  refine ⟨x, hx, ?_⟩
  unfold WheelBufIter.next
  dsimp only
  rw [if_neg (by omega)]
  simp only [hrs, hx]

/-- Advancing by `n` single `next` steps just moves the cursor by `n`, as
long as it stays within the live length. -/
theorem advance_eq (b : WheelBuf I) (hC : 0 < b.capacity)
    (hinv : b.len % b.capacity ≤ b.pos) :
    ∀ n cur, cur + n ≤ b.len →
      WheelBufIter.advance ⟨b, cur⟩ n = some ⟨b, cur + n⟩ := by
  intro n
  induction n with
  | zero => intro cur h; rfl
  | succ n ih =>
    intro cur h
    obtain ⟨x, hx, hnext⟩ := next_lt b cur hC hinv (by omega)
    have e : cur + 1 + n = cur + (n + 1) := by omega
    simp only [WheelBufIter.advance, hnext]
    rw [ih (cur + 1) (by omega), e]

/-- If the slots reachable from `read_start` realize the list `L`, then
driving the iterator from cursor `cur` with enough fuel collects exactly the
suffix `L.drop cur`, with no panic. -/
theorem collect_drop (b : WheelBuf I) (L : List I) (hC : 0 < b.capacity)
    (hinv : b.len % b.capacity ≤ b.pos)
    (hlen : L.length = b.len)
    (hcontent : ∀ k, k < b.len → b.data[(b.rsv + k) % b.capacity]? = L[k]?) :
    ∀ fuel cur, b.len - cur ≤ fuel →
      WheelBufIter.collect ⟨b, cur⟩ fuel = some (L.drop cur) := by
  intro fuel
  induction fuel with
  | zero =>
    intro cur hcur
    have hd : L.drop cur = [] := List.drop_eq_nil_of_le (by omega)
    rw [hd]
    rfl
  | succ fuel ih =>
    intro cur hcur
    by_cases hle : b.len ≤ cur
    · have hd : L.drop cur = [] := List.drop_eq_nil_of_le (by omega)
      rw [hd]
      simp only [WheelBufIter.collect, next_exhausted b cur hle]
    · push_neg at hle
      have hcurL : cur < L.length := by omega
      obtain ⟨x, hx, hnext⟩ := next_lt b cur hC hinv hle
      have hy : x = L[cur] := by
        have h2 := List.getElem?_eq_getElem hcurL
        rw [hcontent cur hle, h2] at hx
        exact (Option.some.inj hx).symm
      have hdc : L.drop cur = x :: L.drop (cur + 1) := by
        rw [hy]
        exact List.drop_eq_getElem_cons hcurL
      simp only [WheelBufIter.collect, hnext]
      rw [ih (cur + 1) (by omega), hdc]
      rfl

/-- Summary of every fact about a state reached by pushing `xs` into a fresh
buffer over a store of positive length: bookkeeping fields, the no-underflow
invariant of `read_start`, the physical content characterization, and the
list the iterator collects. -/
theorem reachable_summary (init xs : List I) (hC : 0 < init.length) :
    ∃ b : WheelBuf I,
      (WheelBuf.new init).pushList xs = some b ∧
      b.capacity = init.length ∧
      b.total = xs.length ∧
      b.pos = xs.length % init.length ∧
      b.len = min xs.length init.length ∧
      b.len % b.capacity ≤ b.pos ∧
      (∀ k, k < b.len →
        b.data[(b.rsv + k) % b.capacity]? = xs[xs.length - b.len + k]?) ∧
      ∀ fuel cur, b.len - cur ≤ fuel →
        WheelBufIter.collect ⟨b, cur⟩ fuel =
          some ((xs.drop (xs.length - b.len)).drop cur) := by
  obtain ⟨b, hb, hdata, htot, hpos, hcontent⟩ := pushList_new_spec init hC xs
  have hcap : b.capacity = init.length := hdata
  have hlen : b.len = min xs.length init.length := by
    unfold WheelBuf.len
    rw [htot, hcap]
  have hinv : b.len % b.capacity ≤ b.pos := by
    rw [hlen, hcap, hpos]
    rcases Nat.le_total init.length xs.length with h | h
    · rw [Nat.min_eq_right h, Nat.mod_self]
      exact Nat.zero_le _
    · rw [Nat.min_eq_left h]
  have hcontent' : ∀ k, k < b.len →
      b.data[(b.rsv + k) % b.capacity]? = xs[xs.length - b.len + k]? := by
    intro k hk
    rw [hcap]
    exact hcontent k hk
  have hlenle : b.len ≤ xs.length := by
    rw [hlen]; exact Nat.min_le_left _ _
  have hL : (xs.drop (xs.length - b.len)).length = b.len := by
    rw [List.length_drop]
    omega
  have hcontentL : ∀ k, k < b.len →
      b.data[(b.rsv + k) % b.capacity]? = (xs.drop (xs.length - b.len))[k]? := by
    intro k hk
    rw [List.getElem?_drop]
    exact hcontent' k hk
  refine ⟨b, hb, hcap, htot, hpos, hlen, hinv, hcontent', ?_⟩
  intro fuel cur hf
  have hCb : 0 < b.capacity := by rw [hcap]; exact hC
  exact collect_drop b _ hCb hinv hL hcontentL fuel cur hf

/-! ### Claim theorems -/

/-- Claim C1: for every backing store of positive length `C` and every
sequence `xs` of `M` pushes into a fresh buffer, iterating the buffer (with
no pushes during iteration) yields exactly the last `min M C` pushed items
in push order, oldest first — never re-ordered, never duplicated, never
skipping a live item; in particular for `M = C + 1` the output is exactly
`xs` with its first pushed item dropped. -/
theorem c1_iter_yields_last_pushes (init xs : List I) (hC : 0 < init.length)
    (fuel : Nat) (hfuel : min xs.length init.length ≤ fuel) :
    ((WheelBuf.new init).pushList xs).bind (fun b => b.iter.collect fuel) =
      some (xs.drop (xs.length - min xs.length init.length)) := by
  obtain ⟨b, hb, hcap, htot, hpos, hlen, hinv, hcontent, hcollect⟩ :=
    reachable_summary init xs hC
  rw [hb, Option.some_bind]
  have h := hcollect fuel 0 (by omega)
  rw [List.drop_zero] at h
  rw [← hlen]
  exact h

/-- Witness for C1: capacity 3, pushes `a b c d` (spec scenario A), iteration
yields exactly `b c d`. -/
theorem c1_iter_yields_last_pushes_witness :
    ((WheelBuf.new ['x', 'x', 'x']).pushList ['a', 'b', 'c', 'd']).bind
      (fun b => b.iter.collect 5) = some ['b', 'c', 'd'] := by
  have h := c1_iter_yields_last_pushes ['x', 'x', 'x'] ['a', 'b', 'c', 'd']
    (by decide) 5 (by decide)
  exact h.trans (by decide)

/-- Claim C3: after any `M` pushes into a fresh buffer of positive capacity
`C`, `len` returns `min M C` and `total` returns `M`; moreover `total` is
monotonically non-decreasing under `push` (it is never reset). -/
theorem c3_len_total (init xs : List I) (hC : 0 < init.length) :
    (((WheelBuf.new init).pushList xs).map WheelBuf.len =
        some (min xs.length init.length) ∧
      ((WheelBuf.new init).pushList xs).map WheelBuf.total = some xs.length) ∧
    ∀ (c : WheelBuf I) (y : I) (c' : WheelBuf I), c.push y = .ok c' →
      c.total ≤ c'.total := by
  constructor
  · obtain ⟨b, hb, hcap, htot, hpos, hlen, -⟩ := reachable_summary init xs hC
    rw [hb]
    exact ⟨by rw [Option.map_some', hlen], by rw [Option.map_some', htot]⟩
  · intro c y c' h
    unfold WheelBuf.push at h
    by_cases hp : c.pos < c.data.length
    · rw [if_pos hp] at h
      injection h with h2
      rw [← h2]
      exact Nat.le_succ _
    · rw [if_neg hp] at h
      exact PushResult.noConfusion h

/-- Witness for C3: capacity 8, pushes `H e l` (spec scenario B): `len = 3`
and `total = 3`; and one concrete `push` does not decrease `total`. -/
theorem c3_len_total_witness :
    (((WheelBuf.new (List.replicate 8 'x')).pushList ['H', 'e', 'l']).map
        WheelBuf.len = some 3 ∧
      ((WheelBuf.new (List.replicate 8 'x')).pushList ['H', 'e', 'l']).map
        WheelBuf.total = some 3) ∧
    (WheelBuf.mk ['d', 'b', 'c'] 1 4).total ≤ (WheelBuf.mk ['d', 'e', 'c'] 2 5).total := by
  obtain ⟨⟨h1, h2⟩, hmono⟩ :=
    c3_len_total (List.replicate 8 'x') ['H', 'e', 'l'] (by decide)
  refine ⟨⟨h1.trans (by decide), h2.trans (by decide)⟩, ?_⟩
  exact hmono (WheelBuf.mk ['d', 'b', 'c'] 1 4) 'e' (WheelBuf.mk ['d', 'e', 'c'] 2 5)
    (by decide)

/-- Claim C7: in every state reachable from construction by pushes on a
buffer of positive capacity `C`, `0 ≤ write_pos < C` holds: construction
sets `pos` to 0 and every successful push wraps it modulo the capacity. -/
theorem c7_write_pos_invariant (init xs : List I) (hC : 0 < init.length)
    (b : WheelBuf I) (hb : (WheelBuf.new init).pushList xs = some b) :
    (WheelBuf.new init).pos = 0 ∧
    b.pos < b.capacity ∧
    ∀ (c : WheelBuf I) (y : I) (c' : WheelBuf I), c.push y = .ok c' →
      c'.pos = (c.pos + 1) % c.capacity := by
  obtain ⟨b', hb', hcap, htot, hpos, hlen, -⟩ := reachable_summary init xs hC
  rw [hb] at hb'
  obtain rfl := Option.some.inj hb'
  refine ⟨rfl, ?_, ?_⟩
  · rw [hcap, hpos]
    exact Nat.mod_lt _ hC
  · intro c y c' h
    unfold WheelBuf.push at h
    by_cases hp : c.pos < c.data.length
    · rw [if_pos hp] at h
      injection h with h2
      rw [← h2]
      rfl
    · rw [if_neg hp] at h
      exact PushResult.noConfusion h

/-- Witness for C7: the concrete reachable state after pushing `a b c d` into
a capacity-3 buffer has `pos = 1 < 3`, and a concrete push wraps `pos`
modulo 3. -/
theorem c7_write_pos_invariant_witness :
    (WheelBuf.new ['x', 'x', 'x']).pos = 0 ∧
    (WheelBuf.mk ['d', 'b', 'c'] 1 4).pos < (WheelBuf.mk ['d', 'b', 'c'] 1 4).capacity ∧
    (WheelBuf.mk ['d', 'e', 'c'] 2 5).pos =
      ((WheelBuf.mk ['d', 'b', 'c'] 1 4).pos + 1) % (WheelBuf.mk ['d', 'b', 'c'] 1 4).capacity := by
  obtain ⟨h0, h1, h2⟩ := c7_write_pos_invariant ['x', 'x', 'x'] ['a', 'b', 'c', 'd']
    (by decide) (WheelBuf.mk ['d', 'b', 'c'] 1 4) (by decide)
  exact ⟨h0, h1,
    h2 (WheelBuf.mk ['d', 'b', 'c'] 1 4) 'e' (WheelBuf.mk ['d', 'e', 'c'] 2 5) (by decide)⟩

/-- Claim C8: `is_empty` returns `true` exactly when `total = 0` or the
capacity is 0; and on a buffer constructed with capacity 0, every reachable
state has `len = 0` and `is_empty = true` (`len` and `is_empty` are total
functions, so these read queries never fail). -/
theorem c8_is_empty_iff (init xs : List I) (b : WheelBuf I) :
    (∀ c : WheelBuf I, c.is_empty = true ↔ (c.total = 0 ∨ c.capacity = 0)) ∧
    (init.length = 0 → (WheelBuf.new init).pushList xs = some b →
      b.len = 0 ∧ b.is_empty = true) := by
  constructor
  · intro c
    unfold WheelBuf.is_empty
    simp
  · intro hinit hb
    have hnil : init = [] := List.length_eq_zero.mp hinit
    subst hnil
    cases xs with
    | nil =>
      obtain rfl := Option.some.inj hb
      exact ⟨rfl, rfl⟩
    | cons x xs => exact Option.noConfusion hb

/-- Witness for C8: a concrete non-empty buffer (`total = 4`, capacity 3) is
not `is_empty`, and the capacity-0 buffer reachable by zero pushes has
`len = 0` and `is_empty = true`. -/
theorem c8_is_empty_iff_witness :
    ((WheelBuf.mk ['d', 'b', 'c'] 1 4).is_empty = true ↔
      ((WheelBuf.mk ['d', 'b', 'c'] 1 4).total = 0 ∨
        (WheelBuf.mk ['d', 'b', 'c'] 1 4).capacity = 0)) ∧
    ((WheelBuf.new ([] : List Char)).len = 0 ∧
      (WheelBuf.new ([] : List Char)).is_empty = true) := by
  obtain ⟨h1, h2⟩ :=
    c8_is_empty_iff ([] : List Char) ([] : List Char) (WheelBuf.new ([] : List Char))
  exact ⟨h1 (WheelBuf.mk ['d', 'b', 'c'] 1 4), h2 rfl rfl⟩

/-- Claim C10: on every state reachable by construction and pushes, `next`
is total: with positive capacity the unsigned subtraction inside
`read_start` never underflows (`len % capacity ≤ pos`), and on an empty
buffer — including capacity 0 — the `cur ≥ len` guard returns
end-of-sequence before the modulo or the slice indexing is evaluated, so
`next` never panics at any cursor. -/
theorem c10_next_never_panics (init xs : List I) (b : WheelBuf I)
    (hb : (WheelBuf.new init).pushList xs = some b) :
    (0 < b.capacity → b.len % b.capacity ≤ b.pos) ∧
    ∀ cur, WheelBufIter.next ⟨b, cur⟩ ≠ none := by
  rcases Nat.eq_zero_or_pos init.length with hz | hC
  · have hnil : init = [] := List.length_eq_zero.mp hz
    subst hnil
    cases xs with
    | nil =>
      obtain rfl := Option.some.inj hb
      constructor
      · intro h
        have h0 : (WheelBuf.new ([] : List I)).capacity = 0 := rfl
        exact absurd (h0 ▸ h) (Nat.lt_irrefl 0)
      · intro cur
        rw [next_exhausted _ _ (Nat.zero_le _)]
        exact Option.noConfusion
    | cons x xs => exact Option.noConfusion hb
  · obtain ⟨b', hb', hcap, htot, hpos, hlen, hinv, -⟩ := reachable_summary init xs hC
    rw [hb] at hb'
    obtain rfl := Option.some.inj hb'
    refine ⟨fun _ => hinv, ?_⟩
    intro cur
    rcases Nat.lt_or_ge cur b.len with hcur | hcur
    · obtain ⟨x, -, hnext⟩ := next_lt b cur (hcap ▸ hC) hinv hcur
      rw [hnext]
      exact Option.noConfusion
    · rw [next_exhausted _ _ hcur]
      exact Option.noConfusion

/-- Witness for C10: the concrete reachable state after four pushes into a
capacity-3 buffer satisfies the no-underflow inequality and its iterator's
`next` does not panic at cursor 0. -/
theorem c10_next_never_panics_witness :
    (WheelBuf.mk ['d', 'b', 'c'] 1 4).len % (WheelBuf.mk ['d', 'b', 'c'] 1 4).capacity ≤
      (WheelBuf.mk ['d', 'b', 'c'] 1 4).pos ∧
    WheelBufIter.next ⟨WheelBuf.mk ['d', 'b', 'c'] 1 4, 0⟩ ≠ none := by
  obtain ⟨h1, h2⟩ := c10_next_never_panics ['x', 'x', 'x'] ['a', 'b', 'c', 'd']
    (WheelBuf.mk ['d', 'b', 'c'] 1 4) (by decide)
  exact ⟨h1 (by decide), h2 0⟩

/-- Claim C2: on every reachable state with positive capacity, the code's
`read_start` computes — without panicking — exactly the spec formula
`(write_pos − (len mod C)) mod C` with positively wrapping arithmetic, and
the `k`-th element the iterator yields is the one stored at physical index
`(read_start + k) mod C`. -/
theorem c2_read_start_mapping (init xs : List I) (hC : 0 < init.length)
    (b : WheelBuf I) (hb : (WheelBuf.new init).pushList xs = some b) :
    b.read_start = some b.specReadStart ∧
    ∀ k, k < b.len →
      ((b.iter.collect b.len).bind (fun l => l[k]?)) =
        b.data[(b.specReadStart + k) % b.capacity]? := by
  obtain ⟨b', hb', hcap, htot, hpos, hlen, hinv, hcontent, hcollect⟩ :=
    reachable_summary init xs hC
  rw [hb] at hb'
  obtain rfl := Option.some.inj hb'
  have hposlt : b.pos < b.capacity := by
    rw [hcap, hpos]
    exact Nat.mod_lt _ hC
  have hspec : b.specReadStart = b.rsv := by
    unfold WheelBuf.specReadStart WheelBuf.rsv
    have h1 : b.pos + b.capacity - b.len % b.capacity =
        (b.pos - b.len % b.capacity) + b.capacity := by omega
    rw [h1, Nat.add_mod_right]
    exact Nat.mod_eq_of_lt (by omega)
  constructor
  · unfold WheelBuf.read_start
    rw [if_neg (by omega), if_neg (by omega), hspec]
    rfl
  · intro k hk
    have h := hcollect b.len 0 (by omega)
    rw [List.drop_zero] at h
    have hiter : b.iter = (⟨b, 0⟩ : WheelBufIter I) := rfl
    rw [hiter, h, Option.some_bind, hspec, List.getElem?_drop]
    exact (hcontent k hk).symm

/-- Witness for C2: the concrete reachable state after four pushes into a
capacity-3 buffer: `read_start` equals the spec formula and the element at
logical offset 1 comes from physical index `(read_start + 1) mod 3`. -/
theorem c2_read_start_mapping_witness :
    (WheelBuf.mk ['d', 'b', 'c'] 1 4).read_start =
      some (WheelBuf.mk ['d', 'b', 'c'] 1 4).specReadStart ∧
    (((WheelBuf.mk ['d', 'b', 'c'] 1 4).iter.collect
        (WheelBuf.mk ['d', 'b', 'c'] 1 4).len).bind (fun l => l[1]?)) =
      (WheelBuf.mk ['d', 'b', 'c'] 1 4).data[
        ((WheelBuf.mk ['d', 'b', 'c'] 1 4).specReadStart + 1) %
          (WheelBuf.mk ['d', 'b', 'c'] 1 4).capacity]? := by
  obtain ⟨h1, h2⟩ := c2_read_start_mapping ['x', 'x', 'x'] ['a', 'b', 'c', 'd']
    (by decide) (WheelBuf.mk ['d', 'b', 'c'] 1 4) (by decide)
  exact ⟨h1, h2 1 (by decide)⟩

/-- Claim C6: once `next` reports end-of-sequence the iterator state is
unchanged and every subsequent `next` again reports end-of-sequence
(idempotent exhaustion); and on a reachable buffer the yielded sequence is
finite, of length exactly `len`, for any sufficient fuel. -/
theorem c6_exhaustion_idempotent (init xs : List I) (hC : 0 < init.length)
    (b : WheelBuf I) (hb : (WheelBuf.new init).pushList xs = some b) :
    (∀ it it' : WheelBufIter I, it.next = some (none, it') →
      it' = it ∧ it'.next = some (none, it')) ∧
    ∀ fuel, b.len ≤ fuel → (b.iter.collect fuel).map List.length = some b.len := by
  obtain ⟨b', hb', hcap, htot, hpos, hlen, hinv, hcontent, hcollect⟩ :=
    reachable_summary init xs hC
  rw [hb] at hb'
  obtain rfl := Option.some.inj hb'
  constructor
  · intro it it' h
    unfold WheelBufIter.next at h
    by_cases hle : it.buffer.len ≤ it.cur
    · rw [if_pos hle] at h
      injection h with h2
      injection h2 with h3 h4
      subst h4
      refine ⟨rfl, ?_⟩
      unfold WheelBufIter.next
      rw [if_pos hle]
    · rw [if_neg hle] at h
      cases hrs : it.buffer.read_start with
      | none =>
        rw [hrs] at h
        exact Option.noConfusion h
      | some rs =>
        simp only [hrs] at h
        cases hget : it.buffer.data[(rs + it.cur) % it.buffer.capacity]? with
        | none =>
          simp only [hget] at h
          exact Option.noConfusion h
        | some x =>
          simp only [hget] at h
          injection h with h2
          injection h2 with h3 h4
          exact Option.noConfusion h3
  · intro fuel hfuel
    have h := hcollect fuel 0 (by omega)
    rw [List.drop_zero] at h
    have hiter : b.iter = (⟨b, 0⟩ : WheelBufIter I) := rfl
    rw [hiter, h, Option.map_some']
    have hle : b.len ≤ xs.length := by
      rw [hlen]
      exact Nat.min_le_left _ _
    rw [List.length_drop]
    congr 1
    omega

/-- Witness for C6: the exhausted concrete iterator (cursor 3 = `len`) keeps
reporting end-of-sequence, and the full collected sequence has length
exactly `len = 3`. -/
theorem c6_exhaustion_idempotent_witness :
    (WheelBufIter.mk (WheelBuf.mk ['d', 'b', 'c'] 1 4) 3).next =
      some (none, WheelBufIter.mk (WheelBuf.mk ['d', 'b', 'c'] 1 4) 3) ∧
    ((WheelBuf.mk ['d', 'b', 'c'] 1 4).iter.collect 5).map List.length = some 3 := by
  obtain ⟨h1, h2⟩ := c6_exhaustion_idempotent ['x', 'x', 'x'] ['a', 'b', 'c', 'd']
    (by decide) (WheelBuf.mk ['d', 'b', 'c'] 1 4) (by decide)
  refine ⟨?_, (h2 5 (by decide)).trans (by decide)⟩
  exact (h1 (WheelBufIter.mk (WheelBuf.mk ['d', 'b', 'c'] 1 4) 3)
    (WheelBufIter.mk (WheelBuf.mk ['d', 'b', 'c'] 1 4) 3) (by decide)).2

/-- Evaluation of `nth` for `n > 0`: the cursor moves by
`min n (min total capacity)` and `next` is called. -/
theorem nth_eq_next_of_pos (it : WheelBufIter I) (n : Nat) (hn : 0 < n) :
    it.nth n = WheelBufIter.next
      ⟨it.buffer, it.cur + min n (min it.buffer.total it.buffer.capacity)⟩ := by
  unfold WheelBufIter.nth
  dsimp only
  rw [if_pos hn]

/-- Claim C5: on a fresh iterator over a reachable buffer, `nth n` equals
advancing by `n` single `next` steps and then taking `next`, for every
`n ≤ len`; `nth 0` is plain `next` (for every iterator); and for `n > len`
the skip is clamped — `nth` reports end-of-sequence, not an error. -/
theorem c5_nth_equiv (init xs : List I) (hC : 0 < init.length)
    (b : WheelBuf I) (hb : (WheelBuf.new init).pushList xs = some b) :
    (∀ it : WheelBufIter I, it.nth 0 = it.next) ∧
    (∀ n, n ≤ b.len →
      b.iter.nth n = (b.iter.advance n).bind WheelBufIter.next) ∧
    (∀ n, b.len < n → b.iter.nth n = some (none, ⟨b, b.len⟩)) := by
  obtain ⟨b', hb', hcap, htot, hpos, hlen, hinv, -⟩ := reachable_summary init xs hC
  rw [hb] at hb'
  obtain rfl := Option.some.inj hb'
  have hCb : 0 < b.capacity := hcap ▸ hC
  refine ⟨fun it => rfl, ?_, ?_⟩
  · intro n hn
    rcases Nat.eq_zero_or_pos n with rfl | hnpos
    · rfl
    · rw [nth_eq_next_of_pos b.iter n hnpos]
      have hmin : min n (min b.total b.capacity) = n := by
        have hd : min b.total b.capacity = b.len := rfl
        rw [hd]
        exact Nat.min_eq_left hn
      have h2 : (⟨b.iter.buffer,
          b.iter.cur + min n (min b.iter.buffer.total b.iter.buffer.capacity)⟩ :
            WheelBufIter I) = ⟨b, n⟩ := by
        show (⟨b, 0 + min n (min b.total b.capacity)⟩ : WheelBufIter I) = ⟨b, n⟩
        rw [hmin, Nat.zero_add]
      rw [h2, show b.iter = (⟨b, 0⟩ : WheelBufIter I) from rfl,
        advance_eq b hCb hinv n 0 (by omega), Option.some_bind, Nat.zero_add]
  · intro n hngt
    rw [nth_eq_next_of_pos b.iter n (by omega)]
    have hmin : min n (min b.total b.capacity) = b.len := by
      have hd : min b.total b.capacity = b.len := rfl
      rw [hd]
      exact Nat.min_eq_right (Nat.le_of_lt hngt)
    have h2 : (⟨b.iter.buffer,
        b.iter.cur + min n (min b.iter.buffer.total b.iter.buffer.capacity)⟩ :
          WheelBufIter I) = ⟨b, b.len⟩ := by
      show (⟨b, 0 + min n (min b.total b.capacity)⟩ : WheelBufIter I) = ⟨b, b.len⟩
      rw [hmin, Nat.zero_add]
    rw [h2]
    exact next_exhausted b b.len (Nat.le_refl _)

/-- Witness for C5: the capacity-8 buffer holding `H e l` (spec scenario B):
`nth 0` equals `next`, `nth 1` equals one `next` step then `next`, and
`nth 9` is clamped to end-of-sequence. -/
theorem c5_nth_equiv_witness :
    (WheelBufIter.mk (WheelBuf.mk ['H', 'e', 'l', 'x', 'x', 'x', 'x', 'x'] 3 3) 0).nth 0 =
      (WheelBufIter.mk (WheelBuf.mk ['H', 'e', 'l', 'x', 'x', 'x', 'x', 'x'] 3 3) 0).next ∧
    (WheelBuf.mk ['H', 'e', 'l', 'x', 'x', 'x', 'x', 'x'] 3 3).iter.nth 1 =
      ((WheelBuf.mk ['H', 'e', 'l', 'x', 'x', 'x', 'x', 'x'] 3 3).iter.advance 1).bind
        WheelBufIter.next ∧
    (WheelBuf.mk ['H', 'e', 'l', 'x', 'x', 'x', 'x', 'x'] 3 3).iter.nth 9 =
      some (none, WheelBufIter.mk (WheelBuf.mk ['H', 'e', 'l', 'x', 'x', 'x', 'x', 'x'] 3 3) 3) := by
  obtain ⟨h1, h2, h3⟩ := c5_nth_equiv (List.replicate 8 'x') ['H', 'e', 'l'] (by decide)
    (WheelBuf.mk ['H', 'e', 'l', 'x', 'x', 'x', 'x', 'x'] 3 3) (by decide)
  exact ⟨h1 _, h2 1 (by decide), h3 9 (by decide)⟩

/-- Counterexample to Claim C4 as stated: `push` on a capacity-0 buffer is
not guarded in the code — the unguarded slice write `data[pos]` is evaluated
and fails (index out of bounds on the empty slice), rather than being
rejected with a defined error value or skipped by a guard. -/
theorem c4_counterexample :
    (WheelBuf.new ([] : List Nat)).push 7 = PushResult.indexPanic := rfl

/-- Claim C4 amended: `push` on a capacity-0 buffer is not explicitly
guarded: it always evaluates the unguarded out-of-bounds slice write, which
panics (a defined Rust panic, but not an error value or a guarded no-op);
the modulo-by-zero later in `push` is never reached because the write fails
first. -/
theorem c4_zero_capacity_push (b : WheelBuf I) (x : I) (hC : b.capacity = 0) :
    b.push x = PushResult.indexPanic := by
  have h0 : b.data.length = 0 := hC
  unfold WheelBuf.push
  rw [if_neg (by omega)]

/-- Witness for the amended C4 at a concrete zero-capacity buffer. -/
theorem c4_zero_capacity_push_witness :
    (WheelBuf.new ([] : List Char)).push 'z' = PushResult.indexPanic :=
  c4_zero_capacity_push (WheelBuf.new ([] : List Char)) 'z' rfl

/-- Equivalence: `write_str` performs exactly the same sequence of pushes as `pushList`:
each character of the chunk, in order, via `push`. -/
theorem write_str_eq_pushList (b : WheelBuf Char) (s : List Char) :
    b.write_str s = b.pushList s := by
  induction s generalizing b with
  | nil => rfl
  | cons c cs ih =>
    unfold WheelBuf.write_str WheelBuf.pushList
    cases b.push c with
    | ok b' => exact ih b'
    | indexPanic => rfl

/-- Counterexample to Claim C9 as stated: on a capacity-0 char buffer,
`write_str` does not report success — the very first push evaluates the
unguarded slice write and panics, so `Ok(())` is never returned; the claim's
"regardless of capacity" fails. -/
theorem c9_counterexample :
    (WheelBuf.new ([] : List Char)).write_str ['a'] = none := rfl

/-- Claim C9 amended: on every char buffer reachable by pushes into a fresh
buffer of positive capacity, `write_str s` pushes each character of `s` via
`push`, one at a time in order (it is exactly the iterated `push` fold), and
reports success: no character is rejected and there is no partial-success
state.  On a capacity-0 buffer with non-empty input it panics instead, so
the success guarantee holds for positive capacity, not regardless of it. -/
theorem c9_write_str_ok (init xs s : List Char) (hC : 0 < init.length)
    (b : WheelBuf Char) (hb : (WheelBuf.new init).pushList xs = some b) :
    ∃ b', b.write_str s = some b' ∧ b.pushList s = some b' := by
  obtain ⟨b2, hb2, -⟩ := reachable_summary init (xs ++ s) hC
  rw [pushList_append, hb, Option.some_bind] at hb2
  exact ⟨b2, (write_str_eq_pushList b s).trans hb2, hb2⟩

/-- Witness for the amended C9: appending `ef` to the concrete reachable
capacity-3 buffer succeeds and agrees with iterated `push`. -/
theorem c9_write_str_ok_witness :
    (WheelBuf.mk ['d', 'b', 'c'] 1 4).write_str ['e', 'f'] =
      some (WheelBuf.mk ['d', 'e', 'f'] 0 6) ∧
    (WheelBuf.mk ['d', 'b', 'c'] 1 4).pushList ['e', 'f'] =
      some (WheelBuf.mk ['d', 'e', 'f'] 0 6) := by
  obtain ⟨b', h1, h2⟩ := c9_write_str_ok ['x', 'x', 'x'] ['a', 'b', 'c', 'd'] ['e', 'f']
    (by decide) (WheelBuf.mk ['d', 'b', 'c'] 1 4) (by decide)
  have h3 : some b' = some (WheelBuf.mk ['d', 'e', 'f'] 0 6) := h2.symm.trans (by decide)
  obtain rfl := Option.some.inj h3
  exact ⟨h1, h2⟩

